import Mathlib

/-!
Verification of the hanzoai/memory core against its specification.

The TypeScript sources are shallowly embedded: JavaScript numbers are
modelled by real numbers, with `Option ℝ` used where a computation can
produce a non-finite value (`none` stands for a NaN or infinite result);
thrown exceptions are modelled with `Except String`; JavaScript `Map`
objects are modelled as insertion-ordered association lists; asynchronous
code is modelled by explicit state passing, and the bounded-concurrency
worker pool by a small-step interleaving relation.
-/

/-! ## JavaScript primitives -/

/-- JavaScript division `x / y`.  Division by zero does not throw: it
yields a non-finite value (NaN when the numerator is also zero, signed
infinity otherwise), which is not a real number and is modelled uniformly
as `none`.  In the cosine-similarity functions below the numerator is
provably zero whenever the divisor is, so `none` there always corresponds
to NaN. -/
noncomputable def jsDiv (x y : ℝ) : Option ℝ :=
  if y = 0 then none else some (x / y)

/-- Truthiness of a JavaScript value that is either a string or absent
(`undefined`): absent and the empty string are falsy. -/
def jsTruthyStr : Option String → Bool
  | none => false
  | some s => !(s == "")

/-- JavaScript `a || d` for an optional nonnegative number `a`: absent and
`0` are falsy and select the default `d`. -/
def jsOrDefault (a : Option ℕ) (d : ℕ) : ℕ :=
  match a with
  | none => d
  | some v => if v = 0 then d else v

/-! ## Vector math — `packages/embedding/src/utils.ts` and `src/db/base.ts`

Both files define a `cosineSimilarity` over `number[]`.  The accumulation
loop (`dotProduct`, `normA`, `normB`) is identical in the two files; they
differ after the loop: the utility in `utils.ts` guards against a zero
norm and returns `0`, while the copy private to `src/db/base.ts` divides
unconditionally. -/

/-- The shared accumulator loop of both `cosineSimilarity` functions:
`for (let i = 0; i < a.length; i++) { dotProduct += a[i]*b[i]; normA += a[i]*a[i]; normB += b[i]*b[i] }`.
Returns `(dotProduct, normA, normB)` before the square roots are taken. -/
noncomputable def simLoop (a b : List ℝ) : ℝ × ℝ × ℝ :=
  (a.zip b).foldl
    (fun acc p => (acc.1 + p.1 * p.2, acc.2.1 + p.1 * p.1, acc.2.2 + p.2 * p.2))
    (0, 0, 0)

/-- `cosineSimilarity` from `packages/embedding/src/utils.ts`: throws on a
length mismatch, takes square roots of the accumulated norms, returns `0`
when either norm is zero, and otherwise divides. -/
noncomputable def cosineSimilarity (a b : List ℝ) : Except String (Option ℝ) :=
  if a.length ≠ b.length then .error "Vectors must have the same length"
  else
    let acc := simLoop a b
    let dotProduct := acc.1
    let normA := Real.sqrt acc.2.1
    let normB := Real.sqrt acc.2.2
    if normA = 0 ∨ normB = 0 then .ok (some 0)
    else .ok (jsDiv dotProduct (normA * normB))

namespace MemDB

/-- The private `cosineSimilarity` of `src/db/base.ts`: same length check
and accumulation loop, but no zero-norm guard — it returns
`dotProduct / (Math.sqrt(normA) * Math.sqrt(normB))` unconditionally. -/
noncomputable def cosineSimilarity (a b : List ℝ) : Except String (Option ℝ) :=
  if a.length ≠ b.length then .error "Vectors must have same length"
  else
    let acc := simLoop a b
    .ok (jsDiv acc.1 (Real.sqrt acc.2.1 * Real.sqrt acc.2.2))

end MemDB

/-! ## Association-list model of a JavaScript `Map` -/

/-- `Map.get(k)`: the value at the first (unique) entry with key `k`, or
`undefined` (`none`) when absent. -/
def mapGet {β : Type} (m : List (String × β)) (k : String) : Option β :=
  match m with
  | [] => none
  | (k₀, v₀) :: rest => if k₀ == k then some v₀ else mapGet rest k

/-- `Map.set(k, v)`: overwrite the value in place when the key is present,
otherwise append a new entry (JavaScript `Map` preserves insertion
order). -/
def mapSet {β : Type} (m : List (String × β)) (k : String) (v : β) : List (String × β) :=
  match m with
  | [] => [(k, v)]
  | (k₀, v₀) :: rest => if k₀ == k then (k₀, v) :: rest else (k₀, v₀) :: mapSet rest k v

/-! ## Mock embedding provider —
`packages/embedding/src/providers/mock.ts` (`MockEmbeddingService.embed`)
and the identical algorithm in `src/services/embeddings.ts`.

The `embed` method computes a seed as the sum of the character codes of
the input text, then derives each component from a seeded pseudo-random
generator `rng(s) = frac(sin(s) * 10000)`, mapped to `[-1, 1]`.  Character
codes are UTF-16 code units; Lean `Char` values are unicode scalar
values, which agree on the basic multilingual plane.  The `latency`,
`model` and `tokens` fields of the returned object are call metadata, not
part of the embedding vector, and are not modelled. -/

/-- `const seed = text.split('').reduce((acc, char) => acc + char.charCodeAt(0), 0)`. -/
def charCodeSum (text : String) : ℕ :=
  text.data.foldl (fun acc c => acc + c.toNat) 0

/-- The seeded generator `rng`: `s = Math.sin(s) * 10000; return s - Math.floor(s)`. -/
noncomputable def mockRng (s : ℝ) : ℝ :=
  let t := Real.sin s * 10000
  t - ⌊t⌋

/-- The embedding vector computed by `MockEmbeddingService.embed`:
`Array.from({length: dimension}, (_, i) => rng(seed + i) * 2 - 1)`. -/
noncomputable def mockEmbedVector (dimension : ℕ) (text : String) : List ℝ :=
  let seed := charCodeSum text
  (List.range dimension).map (fun i => mockRng ((seed : ℝ) + (i : ℝ)) * 2 - 1)

/-- Instance state of `MockEmbeddingService`: the `ready` flag toggled by
`initialize`/`dispose`, and the `dimension` fixed at construction
(`options.dimension ?? 384`). -/
structure MockState where
  ready : Bool
  dimension : ℕ

namespace MockEmbeddingService

/-- A call to `MockEmbeddingService.embed`: the method reads only
`this.dimension` and the argument text, mutates nothing, and returns the
deterministic vector. -/
noncomputable def embed (s : MockState) (text : String) : List ℝ × MockState :=
  (mockEmbedVector s.dimension text, s)

end MockEmbeddingService

/-! ## Cached embedding layer —
`packages/embedding/src/providers/candle.ts` concatenation, class
`CachedEmbeddingService` (cache map, hit/miss counters, `embed`,
`embedBatch`).

The wrapped provider (`embedUncached` / `embedBatchUncached`) is abstract
in the source; it is modelled as a deterministic function
`f : String → α` (the spec's determinism assumption for providers), with
`embedBatchUncached texts = texts.map f`.  Embedding payloads are opaque
to the cache, so the vector type is a parameter `α`.  Each operation
additionally returns the texts it passed to the wrapped provider, so that
call counts can be stated. -/

/-- The mutable instance state of `CachedEmbeddingService`. -/
structure CacheState (α : Type) where
  cache : List (String × α)
  cacheHits : ℕ
  cacheMisses : ℕ

namespace CachedEmbeddingService

/-- `embed(text)`: on a cache hit (`Map.get` returns a value; arrays are
always truthy) bump `cacheHits` and return the cached vector without
calling the provider; on a miss bump `cacheMisses`, call
`embedUncached(text)`, store the result in the cache, and return it.
The third component lists the texts sent to `embedUncached` during the
call. -/
def embed {α : Type} (f : String → α) (s : CacheState α) (text : String) :
    α × CacheState α × List String :=
  match mapGet s.cache text with
  | some cached =>
      (cached, { s with cacheHits := s.cacheHits + 1 }, [])
  | none =>
      let result := f text
      (result,
       { cache := mapSet s.cache text result
         cacheHits := s.cacheHits
         cacheMisses := s.cacheMisses + 1 },
       [text])

/-- The partition pass of `embedBatch`: `texts.forEach((text, index) => ...)`
starting at index `i`.  Returns the results array (`some` at cache hits,
holes — JavaScript `undefined` — at misses), `uncachedTexts`,
`uncachedIndices`, and the numbers of hits and misses counted. -/
def cacheScan {α : Type} (cache : List (String × α)) :
    List String → ℕ → List (Option α) × List String × List ℕ × ℕ × ℕ
  | [], _ => ([], [], [], 0, 0)
  | text :: rest, i =>
      let (results, uncachedTexts, uncachedIndices, hits, misses) :=
        cacheScan cache rest (i + 1)
      match mapGet cache text with
      | some cached => (some cached :: results, uncachedTexts, uncachedIndices, hits + 1, misses)
      | none => (none :: results, text :: uncachedTexts, i :: uncachedIndices, hits, misses + 1)

/-- The fill pass of `embedBatch`:
`uncachedResult.embeddings.forEach((embedding, i) => { cache.set(uncachedTexts[i], embedding); results[index] = embedding })`,
where `uncachedResult.embeddings = uncachedTexts.map f` and the pairs
argument is `uncachedTexts.zip uncachedIndices`. -/
def cacheFill {α : Type} (f : String → α) :
    List (String × ℕ) → List (String × α) → List (Option α) →
    List (String × α) × List (Option α)
  | [], cache, results => (cache, results)
  | (text, index) :: rest, cache, results =>
      cacheFill f rest (mapSet cache text (f text)) (results.set index (some (f text)))

/-- `embedBatch(texts)`: partition against the cache, then — only when
`uncachedTexts.length > 0` — one `embedBatchUncached` call for the miss
subset, whose results are cached and written back at the original
indices.  The third component is the argument of that single call, or
`none` when every text was a hit. -/
def embedBatch {α : Type} (f : String → α) (s : CacheState α) (texts : List String) :
    List (Option α) × CacheState α × Option (List String) :=
  let (results, uncachedTexts, uncachedIndices, hits, misses) := cacheScan s.cache texts 0
  if uncachedTexts.isEmpty then
    (results,
     { s with cacheHits := s.cacheHits + hits, cacheMisses := s.cacheMisses + misses },
     none)
  else
    let (cache', results') := cacheFill f (uncachedTexts.zip uncachedIndices) s.cache results
    (results',
     { cache := cache'
       cacheHits := s.cacheHits + hits
       cacheMisses := s.cacheMisses + misses },
     some uncachedTexts)

end CachedEmbeddingService

/-! ## Bounded-concurrency batch embedding —
`packages/embedding/src/providers/candle.ts`,
`LlamaCppEmbeddingService.embedBatch` (and the structurally identical
`LlamaCppBatchEmbeddingService.embedBatch` in
`src/services/embeddings/base.ts` concatenation).

The source builds a shared queue `texts.map((text, index) => ({text, index}))`
and `Math.min(maxConcurrency, texts.length)` async workers, each looping:
check `queue.length > 0`, `queue.shift()`, `await this.embed(item.text)`,
`results[item.index] = result`.  The check, shift, write and next check
run in one synchronous slice of the single-threaded event loop; the only
suspension point is the `await`.  This is modelled as a small-step
interleaving relation whose atomic steps are at least as fine as the real
schedule (every real behavior is a behavior of the model): a worker
atomically takes an item from the nonempty queue and starts its provider
call, atomically finishes and exits when the queue is empty, or
atomically completes its outstanding call and writes the result.  The
underlying `embed` is modelled as a deterministic function `f`.
`maxConcurrency` comes from `options.providerOptions?.maxConcurrency || 4`
(`jsOrDefault`). -/

/-- The phase of one worker: in its loop between awaits (`running`),
awaiting one `this.embed(item.text)` call — an outstanding provider call —
(`calling`), or exited (`finished`). -/
inductive WorkerPhase (α : Type) where
  | running : WorkerPhase α
  | calling (text : String) (index : ℕ) : WorkerPhase α
  | finished : WorkerPhase α
deriving DecidableEq

/-- The shared state of one `embedBatch` invocation: the work queue, the
worker pool, and the pre-sized results array (`new Array(texts.length)`,
holes are `none`). -/
structure PoolState (α : Type) where
  queue : List (String × ℕ)
  workers : List (WorkerPhase α)
  results : List (Option α)
deriving DecidableEq

/-- The state at the top of `embedBatch`, before any worker runs. -/
def poolInit (α : Type) (maxConcurrency : Option ℕ) (texts : List String) : PoolState α :=
  { queue := texts.enum.map (fun p => (p.2, p.1))
    workers := List.replicate (min (jsOrDefault maxConcurrency 4) texts.length) .running
    results := List.replicate texts.length none }

/-- The indices of the outstanding provider calls, one per worker in the
`calling` phase. -/
def callingIndices {α : Type} (ws : List (WorkerPhase α)) : List ℕ :=
  ws.filterMap (fun w => match w with | .calling _ i => some i | _ => none)

/-- One atomic step of the worker pool (the provider is the deterministic
function `f`). -/
inductive PoolStep {α : Type} (f : String → α) : PoolState α → PoolState α → Prop where
  | take (s : PoolState α) (w : ℕ) (text : String) (index : ℕ) (rest : List (String × ℕ))
      (hw : s.workers.get? w = some .running)
      (hq : s.queue = (text, index) :: rest) :
      PoolStep f s { s with queue := rest, workers := s.workers.set w (.calling text index) }
  | exit (s : PoolState α) (w : ℕ)
      (hw : s.workers.get? w = some .running)
      (hq : s.queue = []) :
      PoolStep f s { s with workers := s.workers.set w .finished }
  | complete (s : PoolState α) (w : ℕ) (text : String) (index : ℕ)
      (hw : s.workers.get? w = some (.calling text index)) :
      PoolStep f s
        { s with workers := s.workers.set w .running
                 results := s.results.set index (some (f text)) }

/-- The states one `embedBatch` invocation can pass through. -/
def PoolReachable {α : Type} (f : String → α) (maxConcurrency : Option ℕ)
    (texts : List String) (s : PoolState α) : Prop :=
  Relation.ReflTransGen (PoolStep f) (poolInit α maxConcurrency texts) s

/-- `Promise.all(workers)` has resolved: every worker has exited its loop. -/
def allFinished {α : Type} (s : PoolState α) : Prop :=
  ∀ w ∈ s.workers, w = WorkerPhase.finished

/-! ## Entity model — `src/models/index.ts`

Identifiers are opaque strings; timestamps are modelled as natural
numbers (epoch milliseconds); `metadata` is an opaque record modelled as
an optional opaque string.  Optional fields are `Option`s
(`undefined = none`). -/

namespace Models

structure Project where
  project_id : String
  user_id : String
  name : String
  description : Option String
  metadata : Option String
  created_at : ℕ
  updated_at : ℕ

structure Memory where
  memory_id : String
  user_id : String
  project_id : Option String
  content : String
  metadata : Option String
  importance : ℝ
  created_at : ℕ
  updated_at : ℕ
  embedding : Option (List ℝ)

structure KnowledgeBase where
  kb_id : String
  project_id : String
  name : String
  description : Option String
  metadata : Option String
  created_at : ℕ
  updated_at : ℕ

structure Fact where
  fact_id : String
  kb_id : String
  content : String
  metadata : Option String
  confidence : ℝ
  created_at : ℕ
  updated_at : ℕ
  embedding : Option (List ℝ)

inductive ChatRole where
  | user
  | assistant
  | system
deriving DecidableEq

structure ChatSession where
  session_id : String
  user_id : String
  project_id : String
  metadata : Option String
  created_at : ℕ
  updated_at : ℕ

structure ChatMessage where
  message_id : String
  session_id : String
  role : ChatRole
  content : String
  metadata : Option String
  created_at : ℕ
  embedding : Option (List ℝ)

/-- The request object of `MemoryClient.searchFacts`
(`SearchFactsRequestSchema`); the client itself does not run the schema
validation, so `query` and `limit` may be absent. -/
structure SearchFactsRequest where
  knowledgeBaseId : String
  query : Option String
  limit : Option ℕ

end Models

/-! ## In-memory entity store — `src/db/base.ts`, class `MemoryDB`

Each `Map<string, T>` table is an insertion-ordered association list.
`Array.from(map.values())` is `List.map Prod.snd`.  The delete-by-scope
loops iterate the entries, deleting matches while counting (deleting the
entry under the iterator is safe for a JavaScript `Map` and leaves the
other entries in order).  JavaScript `array.sort(cmp)` is a stable sort;
a comparator invocation that involves a NaN score returns NaN, which
leaves the relative order of that pair unspecified — the model keeps the
original order for such pairs. -/

/-- `array.slice(start, stop)` for natural indices. -/
def jsSlice {β : Type} (l : List β) (start stop : ℕ) : List β :=
  (l.drop start).take (stop - start)

/-- The comparator `(a, b) => b.similarity_score - a.similarity_score`
as a stable-sort order: `x` may stay before `y` when the comparator is
not positive, i.e. `y.score ≤ x.score`; pairs involving a NaN score keep
their original order. -/
noncomputable def scoreLe {β : Type} (x y : β × Option ℝ) : Bool :=
  match x.2, y.2 with
  | some a, some b => decide (b ≤ a)
  | _, _ => true

/-- The comparator `(a, b) => a.created_at.getTime() - b.created_at.getTime()`
of `getChatMessages` as a stable-sort order. -/
def createdAtLe (x y : Models.ChatMessage) : Bool :=
  x.created_at ≤ y.created_at

/-- `Map.delete(k)`: returns whether the key was present, and the
remaining entries in order. -/
def mapDelete {β : Type} (m : List (String × β)) (k : String) : Bool × List (String × β) :=
  match m with
  | [] => (false, [])
  | (k₀, v₀) :: rest =>
      if k₀ == k then (true, rest)
      else
        let (found, rest') := mapDelete rest k
        (found, (k₀, v₀) :: rest')

/-- The six tables of `MemoryDB`. -/
structure MemoryDBState where
  projects : List (String × Models.Project)
  memories : List (String × Models.Memory)
  knowledgeBases : List (String × Models.KnowledgeBase)
  facts : List (String × Models.Fact)
  chatSessions : List (String × Models.ChatSession)
  chatMessages : List (String × Models.ChatMessage)

namespace MemoryDB

open Models

/-- `getProject`: `this.projects.get(projectId) || null`. -/
def getProject (s : MemoryDBState) (projectId : String) : Option Project :=
  mapGet s.projects projectId

/-- `getUserProjects`. -/
def getUserProjects (s : MemoryDBState) (userId : String) : List Project :=
  (s.projects.map Prod.snd).filter (fun p => p.user_id == userId)

/-- `deleteProject`. -/
def deleteProject (s : MemoryDBState) (projectId : String) : Bool × MemoryDBState :=
  let (found, projects') := mapDelete s.projects projectId
  (found, { s with projects := projects' })

/-- `getMemory`. -/
def getMemory (s : MemoryDBState) (memoryId : String) : Option Memory :=
  mapGet s.memories memoryId

/-- `getUserMemories`: filter by `user_id`, then by `project_id` when the
argument is truthy, then `slice(offset, offset + limit)` with defaults
`limit = 100`, `offset = 0`. -/
def getUserMemories (s : MemoryDBState) (userId : String) (projectId : Option String)
    (limit offset : Option ℕ) : List Memory :=
  let ms := (s.memories.map Prod.snd).filter (fun m => m.user_id == userId)
  let ms := if jsTruthyStr projectId then ms.filter (fun m => m.project_id == projectId) else ms
  jsSlice ms (offset.getD 0) (offset.getD 0 + limit.getD 100)

/-- `searchMemories`: candidates are the user's memories with a (truthy,
i.e. present) embedding, scored with the store-private
`cosineSimilarity`, stably sorted descending by score, sliced to `limit`
(default 10).  A length mismatch inside the scoring loop throws out of
the whole call. -/
noncomputable def searchMemories (s : MemoryDBState) (userId : String) (_query : String)
    (embedding : List ℝ) (projectId : Option String) (limit : Option ℕ) :
    Except String (List (Memory × Option ℝ)) := do
  let ms := (s.memories.map Prod.snd).filter (fun m => m.user_id == userId && m.embedding.isSome)
  let ms := if jsTruthyStr projectId then ms.filter (fun m => m.project_id == projectId) else ms
  let scored ← ms.mapM (fun m => do
    let score ← MemDB.cosineSimilarity embedding (m.embedding.getD [])
    pure (m, score))
  pure ((scored.mergeSort scoreLe).take (limit.getD 10))

/-- `deleteMemory`. -/
def deleteMemory (s : MemoryDBState) (memoryId : String) : Bool × MemoryDBState :=
  let (found, memories') := mapDelete s.memories memoryId
  (found, { s with memories := memories' })

/-- The entry loop of `deleteUserMemories`: delete and count every memory
with `memory.user_id === userId && (!projectId || memory.project_id === projectId)`. -/
def deleteUserMemoriesLoop (userId : String) (projectId : Option String) :
    List (String × Memory) → ℕ × List (String × Memory)
  | [] => (0, [])
  | (id, m) :: rest =>
      let (count, rest') := deleteUserMemoriesLoop userId projectId rest
      if m.user_id == userId && (!(jsTruthyStr projectId) || m.project_id == projectId) then
        (count + 1, rest')
      else
        (count, (id, m) :: rest')

/-- `deleteUserMemories`: returns the number of entries removed. -/
def deleteUserMemories (s : MemoryDBState) (userId : String) (projectId : Option String) :
    ℕ × MemoryDBState :=
  let (count, memories') := deleteUserMemoriesLoop userId projectId s.memories
  (count, { s with memories := memories' })

/-- `getKnowledgeBase`. -/
def getKnowledgeBase (s : MemoryDBState) (kbId : String) : Option KnowledgeBase :=
  mapGet s.knowledgeBases kbId

/-- `getProjectKnowledgeBases`. -/
def getProjectKnowledgeBases (s : MemoryDBState) (projectId : String) : List KnowledgeBase :=
  (s.knowledgeBases.map Prod.snd).filter (fun kb => kb.project_id == projectId)

/-- `deleteKnowledgeBase`. -/
def deleteKnowledgeBase (s : MemoryDBState) (kbId : String) : Bool × MemoryDBState :=
  let (found, kbs') := mapDelete s.knowledgeBases kbId
  (found, { s with knowledgeBases := kbs' })

/-- `getFact`. -/
def getFact (s : MemoryDBState) (factId : String) : Option Fact :=
  mapGet s.facts factId

/-- `getKnowledgeBaseFacts`: filter by `kb_id`, then
`slice(offset, offset + limit)` with defaults `limit = 100`, `offset = 0`. -/
def getKnowledgeBaseFacts (s : MemoryDBState) (kbId : String) (limit offset : Option ℕ) :
    List Fact :=
  let fs := (s.facts.map Prod.snd).filter (fun fa => fa.kb_id == kbId)
  jsSlice fs (offset.getD 0) (offset.getD 0 + limit.getD 100)

/-- `searchFacts` (store level): candidates are the knowledge base's
facts with a present embedding, scored with the store-private
`cosineSimilarity`, stably sorted descending, sliced to `limit`
(default 10). -/
noncomputable def searchFacts (s : MemoryDBState) (kbId : String) (_query : String)
    (embedding : List ℝ) (limit : Option ℕ) : Except String (List (Fact × Option ℝ)) := do
  let fs := (s.facts.map Prod.snd).filter (fun fa => fa.kb_id == kbId && fa.embedding.isSome)
  let scored ← fs.mapM (fun fa => do
    let score ← MemDB.cosineSimilarity embedding (fa.embedding.getD [])
    pure (fa, score))
  pure ((scored.mergeSort scoreLe).take (limit.getD 10))

/-- `deleteFact`. -/
def deleteFact (s : MemoryDBState) (factId : String) : Bool × MemoryDBState :=
  let (found, facts') := mapDelete s.facts factId
  (found, { s with facts := facts' })

/-- The entry loop of `deleteKnowledgeBaseFacts`. -/
def deleteKnowledgeBaseFactsLoop (kbId : String) :
    List (String × Fact) → ℕ × List (String × Fact)
  | [] => (0, [])
  | (id, fa) :: rest =>
      let (count, rest') := deleteKnowledgeBaseFactsLoop kbId rest
      if fa.kb_id == kbId then (count + 1, rest')
      else (count, (id, fa) :: rest')

/-- `deleteKnowledgeBaseFacts`: returns the number of entries removed. -/
def deleteKnowledgeBaseFacts (s : MemoryDBState) (kbId : String) : ℕ × MemoryDBState :=
  let (count, facts') := deleteKnowledgeBaseFactsLoop kbId s.facts
  (count, { s with facts := facts' })

/-- `getChatSession`. -/
def getChatSession (s : MemoryDBState) (sessionId : String) : Option ChatSession :=
  mapGet s.chatSessions sessionId

/-- `getUserChatSessions`. -/
def getUserChatSessions (s : MemoryDBState) (userId : String) (projectId : Option String) :
    List ChatSession :=
  let ss := (s.chatSessions.map Prod.snd).filter (fun c => c.user_id == userId)
  if jsTruthyStr projectId then ss.filter (fun c => some c.project_id == projectId) else ss

/-- `deleteChatSession`. -/
def deleteChatSession (s : MemoryDBState) (sessionId : String) : Bool × MemoryDBState :=
  let (found, sessions') := mapDelete s.chatSessions sessionId
  (found, { s with chatSessions := sessions' })

/-- `getChatMessage`. -/
def getChatMessage (s : MemoryDBState) (messageId : String) : Option ChatMessage :=
  mapGet s.chatMessages messageId

/-- `getChatMessages`: filter by `session_id`, stably sort ascending by
`created_at`, then `slice(offset, offset + limit)` with defaults
`limit = 100`, `offset = 0`. -/
def getChatMessages (s : MemoryDBState) (sessionId : String) (limit offset : Option ℕ) :
    List ChatMessage :=
  let ms := ((s.chatMessages.map Prod.snd).filter
    (fun m => m.session_id == sessionId)).mergeSort createdAtLe
  jsSlice ms (offset.getD 0) (offset.getD 0 + limit.getD 100)

/-- `searchChatMessages`. -/
noncomputable def searchChatMessages (s : MemoryDBState) (sessionId : String) (_query : String)
    (embedding : List ℝ) (limit : Option ℕ) : Except String (List (ChatMessage × Option ℝ)) := do
  let ms := (s.chatMessages.map Prod.snd).filter
    (fun m => m.session_id == sessionId && m.embedding.isSome)
  let scored ← ms.mapM (fun m => do
    let score ← MemDB.cosineSimilarity embedding (m.embedding.getD [])
    pure (m, score))
  pure ((scored.mergeSort scoreLe).take (limit.getD 10))

/-- `deleteChatMessage`. -/
def deleteChatMessage (s : MemoryDBState) (messageId : String) : Bool × MemoryDBState :=
  let (found, messages') := mapDelete s.chatMessages messageId
  (found, { s with chatMessages := messages' })

/-- The entry loop of `deleteChatSessionMessages`. -/
def deleteChatSessionMessagesLoop (sessionId : String) :
    List (String × ChatMessage) → ℕ × List (String × ChatMessage)
  | [] => (0, [])
  | (id, m) :: rest =>
      let (count, rest') := deleteChatSessionMessagesLoop sessionId rest
      if m.session_id == sessionId then (count + 1, rest')
      else (count, (id, m) :: rest')

/-- `deleteChatSessionMessages`: returns the number of entries removed. -/
def deleteChatSessionMessages (s : MemoryDBState) (sessionId : String) : ℕ × MemoryDBState :=
  let (count, messages') := deleteChatSessionMessagesLoop sessionId s.chatMessages
  (count, { s with chatMessages := messages' })

/-- `close`: clears all six tables. -/
def close (_s : MemoryDBState) : MemoryDBState :=
  { projects := []
    memories := []
    knowledgeBases := []
    facts := []
    chatSessions := []
    chatMessages := [] }

end MemoryDB

/-! ## Memory service — `src/services/memory.ts`

Only the operations under verification are modelled: `getMemory` and
`deleteMemory`, which wrap the store with an ownership check. -/

namespace MemoryService

open Models

/-- `MemoryService.getMemory`: fetch by id; when a memory exists but its
`user_id` differs from the caller, return `null`. -/
def getMemory (s : MemoryDBState) (userId memoryId : String) : Option Memory :=
  let memory := MemoryDB.getMemory s memoryId
  match memory with
  | some m => if m.user_id == userId then some m else none
  | none => none

/-- `MemoryService.deleteMemory`: fetch by id; when the memory is absent
or owned by a different user, return `false` without touching the store;
otherwise delegate to the store delete. -/
def deleteMemory (s : MemoryDBState) (userId memoryId : String) : Bool × MemoryDBState :=
  match MemoryDB.getMemory s memoryId with
  | none => (false, s)
  | some m =>
      if m.user_id == userId then MemoryDB.deleteMemory s memoryId
      else (false, s)

end MemoryService

/-! ## Client fact search — `src/client.ts`, `MemoryClient.searchFacts`

The embedding service is the deterministic function `f`; the second
component of the result records the texts passed to `embeddings.embed`,
so that "the embedding service is never invoked" is statable.  When
`!request.query` (absent or empty string) the client returns the
knowledge base's facts from `getKnowledgeBaseFacts(kbId, request.limit)`
(store default limit 100, offset 0), each with `similarity_score: 1`,
without touching the embedding service; otherwise it embeds the query
and delegates to the store search (store default limit 10). -/

namespace MemoryClient

open Models

/-- `MemoryClient.searchFacts`. -/
noncomputable def searchFacts (f : String → List ℝ) (s : MemoryDBState)
    (request : SearchFactsRequest) :
    Except String (List (Fact × Option ℝ)) × List String :=
  if !(jsTruthyStr request.query) then
    let facts := MemoryDB.getKnowledgeBaseFacts s request.knowledgeBaseId request.limit none
    (.ok (facts.map (fun fa => (fa, some (1 : ℝ)))), [])
  else
    let query := request.query.getD ""
    let queryEmbedding := f query
    (MemoryDB.searchFacts s request.knowledgeBaseId query queryEmbedding request.limit, [query])

end MemoryClient

/-- The outstanding-call indices contributed by a single worker phase. -/
def phaseIdx {α : Type} : WorkerPhase α → List ℕ
  | .calling _ i => [i]
  | _ => []

/-- The indices not yet written: those still queued followed by those
held by a worker's outstanding call. -/
def pendingIndices {α : Type} (s : PoolState α) : List ℕ :=
  s.queue.map Prod.snd ++ callingIndices s.workers

/-- The inductive invariant of the worker pool: the pool and results
sizes are fixed; queued and outstanding items carry their own text at
their own index; written slots hold the provider's value for their index;
no index is pending twice; pending slots are unwritten holes; every
unwritten slot is pending; and once any worker has exited, the queue is
empty (the queue never grows and a worker exits only on seeing it
empty). -/
structure PoolInv {α : Type} (f : String → α) (mc : Option ℕ) (texts : List String)
    (s : PoolState α) : Prop where
  wlen : s.workers.length = min (jsOrDefault mc 4) texts.length
  rlen : s.results.length = texts.length
  queue_wf : ∀ p ∈ s.queue, texts.get? p.2 = some p.1
  call_wf : ∀ t i, WorkerPhase.calling t i ∈ s.workers → texts.get? i = some t
  res_wf : ∀ i v, s.results.get? i = some (some v) → ∃ t, texts.get? i = some t ∧ v = f t
  pend_nodup : (pendingIndices s).Nodup
  pend_unfilled : ∀ i ∈ pendingIndices s, s.results.get? i = some none
  pend_cover : ∀ i < texts.length, s.results.get? i = some none → i ∈ pendingIndices s
  fin_queue : WorkerPhase.finished ∈ s.workers → s.queue = []

/-- A store whose `"kb"` knowledge base holds 101 facts (distinct ids,
no embeddings), used to exercise the no-query fact search. -/
def factsKbState : MemoryDBState :=
  { projects := []
    memories := []
    knowledgeBases := []
    facts := (List.range 101).map
      (fun i => ("f" ++ toString i,
        { fact_id := "f" ++ toString i
          kb_id := "kb"
          content := "c"
          metadata := none
          confidence := 1
          created_at := 0
          updated_at := 0
          embedding := none }))
    chatSessions := []
    chatMessages := [] }

/-! ## Theorems -/

/-! ### Vector math (zero-norm behavior) -/

theorem simLoop_foldl (l : List (ℝ × ℝ)) (init : ℝ × ℝ × ℝ) :
    l.foldl (fun acc p => (acc.1 + p.1 * p.2, acc.2.1 + p.1 * p.1, acc.2.2 + p.2 * p.2)) init
      = (init.1 + (l.map fun p => p.1 * p.2).sum,
         init.2.1 + (l.map fun p => p.1 * p.1).sum,
         init.2.2 + (l.map fun p => p.2 * p.2).sum) := by
  induction l generalizing init with
  | nil => simp
  | cons p rest ih =>
      simp only [List.foldl_cons, List.map_cons, List.sum_cons, ih]
      refine Prod.ext ?_ (Prod.ext ?_ ?_) <;> simp <;> ring

theorem simLoop_eq (a b : List ℝ) :
    simLoop a b = (((a.zip b).map fun p => p.1 * p.2).sum,
                   ((a.zip b).map fun p => p.1 * p.1).sum,
                   ((a.zip b).map fun p => p.2 * p.2).sum) := by
  unfold simLoop
  rw [simLoop_foldl]
  simp

theorem simLoop_zero_left (a b : List ℝ) (ha : ∀ x ∈ a, x = 0) :
    (simLoop a b).1 = 0 ∧ (simLoop a b).2.1 = 0 := by
  rw [simLoop_eq]
  constructor
  · exact List.sum_eq_zero fun x hx => by
      obtain ⟨p, hp, rfl⟩ := List.mem_map.mp hx
      rw [ha p.1 (List.of_mem_zip hp).1, zero_mul]
  · exact List.sum_eq_zero fun x hx => by
      obtain ⟨p, hp, rfl⟩ := List.mem_map.mp hx
      rw [ha p.1 (List.of_mem_zip hp).1, zero_mul]

theorem simLoop_zero_right (a b : List ℝ) (hb : ∀ x ∈ b, x = 0) :
    (simLoop a b).1 = 0 ∧ (simLoop a b).2.2 = 0 := by
  rw [simLoop_eq]
  constructor
  · exact List.sum_eq_zero fun x hx => by
      obtain ⟨p, hp, rfl⟩ := List.mem_map.mp hx
      rw [hb p.2 (List.of_mem_zip hp).2, mul_zero]
  · exact List.sum_eq_zero fun x hx => by
      obtain ⟨p, hp, rfl⟩ := List.mem_map.mp hx
      rw [hb p.2 (List.of_mem_zip hp).2, mul_zero]

/-- C1, amended: on equal-length vectors where one side is all zeros
(zero norm), the utility `cosineSimilarity` of
`packages/embedding/src/utils.ts` returns `0`, but the store-private
`cosineSimilarity` of `src/db/base.ts` — which the in-memory similarity
engine uses to score candidates — has no zero-norm guard and returns the
non-finite `0 / 0` (NaN), not `0`. -/
theorem cosineSimilarity_zero_norm (a b : List ℝ) (hlen : a.length = b.length)
    (h : (∀ x ∈ a, x = 0) ∨ (∀ x ∈ b, x = 0)) :
    cosineSimilarity a b = .ok (some 0) ∧ MemDB.cosineSimilarity a b = .ok none := by
  unfold cosineSimilarity MemDB.cosineSimilarity
  rcases h with ha | hb
  · obtain ⟨hdot, hna⟩ := simLoop_zero_left a b ha
    simp [hlen, hdot, hna, jsDiv]
  · obtain ⟨hdot, hnb⟩ := simLoop_zero_right a b hb
    simp [hlen, hdot, hnb, jsDiv]

theorem cosineSimilarity_zero_norm_witness :
    ([(0 : ℝ)].length = [(0 : ℝ)].length ∧ ∀ x ∈ [(0 : ℝ)], x = 0) ∧
      (cosineSimilarity [(0 : ℝ)] [(0 : ℝ)] = .ok (some 0) ∧
        MemDB.cosineSimilarity [(0 : ℝ)] [(0 : ℝ)] = .ok none) :=
  ⟨⟨rfl, by simp⟩, cosineSimilarity_zero_norm [(0 : ℝ)] [(0 : ℝ)] rfl (Or.inl (by simp))⟩

/-- C1, counterexample: on the zero vector the in-memory similarity
engine's `cosineSimilarity` returns NaN (`0 / 0`, modelled `none`), not
`0` as the claim states for both functions. -/
theorem memDbCosineSimilarity_zero_norm_nan :
    MemDB.cosineSimilarity [(0 : ℝ)] [(0 : ℝ)] = .ok none ∧
      (Except.ok none : Except String (Option ℝ)) ≠ .ok (some 0) := by
  constructor
  · obtain ⟨hdot, hna⟩ := simLoop_zero_left [(0 : ℝ)] [(0 : ℝ)] (by simp)
    simp [MemDB.cosineSimilarity, hdot, hna, jsDiv]
  · simp

/-! ### Mock provider determinism -/

/-- C6: for the deterministic mock provider, the embedding is a pure
function of the input text and the configured dimension: any two
instances with the same dimension return the same vector for the same
text, a call leaves the instance state unchanged, and hence repeated
calls on one instance return the same vector. -/
theorem mockEmbed_deterministic (s₁ s₂ : MockState) (t : String)
    (h : s₁.dimension = s₂.dimension) :
    (MockEmbeddingService.embed s₁ t).1 = (MockEmbeddingService.embed s₂ t).1 ∧
      (MockEmbeddingService.embed s₁ t).2 = s₁ ∧
      MockEmbeddingService.embed (MockEmbeddingService.embed s₁ t).2 t =
        MockEmbeddingService.embed s₁ t := by
  refine ⟨?_, rfl, rfl⟩
  simp [MockEmbeddingService.embed, mockEmbedVector, h]

theorem mockEmbed_deterministic_witness :
    ((⟨false, 384⟩ : MockState).dimension = (⟨true, 384⟩ : MockState).dimension) ∧
      ((MockEmbeddingService.embed ⟨false, 384⟩ "x").1 =
          (MockEmbeddingService.embed ⟨true, 384⟩ "x").1 ∧
        (MockEmbeddingService.embed ⟨false, 384⟩ "x").2 = ⟨false, 384⟩ ∧
        MockEmbeddingService.embed (MockEmbeddingService.embed ⟨false, 384⟩ "x").2 "x" =
          MockEmbeddingService.embed ⟨false, 384⟩ "x") :=
  ⟨rfl, mockEmbed_deterministic ⟨false, 384⟩ ⟨true, 384⟩ "x" rfl⟩

/-! ### Cached embedding layer -/

theorem mapGet_mapSet {α : Type} (m : List (String × α)) (k k' : String) (v : α) :
    mapGet (mapSet m k v) k' = if k == k' then some v else mapGet m k' := by
  induction m with
  | nil => by_cases h : k == k' <;> simp_all [mapGet, mapSet]
  | cons e rest ih =>
      obtain ⟨k₀, v₀⟩ := e
      by_cases h0 : k₀ == k
      · have hk : k₀ = k := by simpa using h0
        subst hk
        by_cases h1 : k₀ == k' <;> simp_all [mapGet, mapSet]
      · have hk : ¬(k₀ = k) := by simpa using h0
        by_cases h1 : k₀ == k'
        · have hk1 : k₀ = k' := by simpa using h1
          subst hk1
          simp_all [mapGet, mapSet]
          rw [if_neg (fun hh => hk hh.symm)]
        · simp_all [mapGet, mapSet]

theorem cachedEmbed_fst {α : Type} (f : String → α) (s : CacheState α) (t : String) :
    (CachedEmbeddingService.embed f s t).1 = (mapGet s.cache t).getD (f t) := by
  cases h : mapGet s.cache t <;> simp [CachedEmbeddingService.embed, h]

/-- C3: when a text is not yet cached, the first `embed` call stores its
result in the cache, the second call with the identical text returns
exactly that cached value, and `embedUncached` is invoked exactly once
for the text across the two calls. -/
theorem cachedEmbed_cache_correct {α : Type} (f : String → α) (s : CacheState α) (t : String)
    (h : mapGet s.cache t = none) :
    mapGet (CachedEmbeddingService.embed f s t).2.1.cache t =
        some (CachedEmbeddingService.embed f s t).1 ∧
      (CachedEmbeddingService.embed f (CachedEmbeddingService.embed f s t).2.1 t).1 =
        (CachedEmbeddingService.embed f s t).1 ∧
      (CachedEmbeddingService.embed f s t).2.2 ++
          (CachedEmbeddingService.embed f (CachedEmbeddingService.embed f s t).2.1 t).2.2 =
        [t] := by
  have hset : mapGet (mapSet s.cache t (f t)) t = some (f t) := by
    simp [mapGet_mapSet]
  refine ⟨?_, ?_, ?_⟩ <;> simp [CachedEmbeddingService.embed, h, hset]

theorem cachedEmbed_cache_correct_witness :
    mapGet (⟨[], 0, 0⟩ : CacheState ℕ).cache "x" = none ∧
      (mapGet (CachedEmbeddingService.embed (fun _ => 7) ⟨[], 0, 0⟩ "x").2.1.cache "x" =
          some (CachedEmbeddingService.embed (fun _ => 7) ⟨[], 0, 0⟩ "x").1 ∧
        (CachedEmbeddingService.embed (fun _ => 7)
            (CachedEmbeddingService.embed (fun _ => 7) ⟨[], 0, 0⟩ "x").2.1 "x").1 =
          (CachedEmbeddingService.embed (fun _ => 7) ⟨[], 0, 0⟩ "x").1 ∧
        (CachedEmbeddingService.embed (fun _ => 7) ⟨[], 0, 0⟩ "x").2.2 ++
            (CachedEmbeddingService.embed (fun _ => 7)
              (CachedEmbeddingService.embed (fun _ => 7) ⟨[], 0, 0⟩ "x").2.1 "x").2.2 =
          ["x"]) :=
  ⟨rfl, cachedEmbed_cache_correct (fun _ => 7) ⟨[], 0, 0⟩ "x" rfl⟩

theorem list_set_append {β : Type} :
    ∀ (xs : List β) (y v : β) (ys : List β), (xs ++ y :: ys).set xs.length v = xs ++ v :: ys := by
  intro xs
  induction xs with
  | nil => intro y v ys; simp
  | cons x rest ih => intro y v ys; simp [List.set, ih]

theorem cacheScan_results {α : Type} (cache : List (String × α)) :
    ∀ (texts : List String) (k : ℕ),
      (CachedEmbeddingService.cacheScan cache texts k).1 = texts.map (mapGet cache) := by
  intro texts
  induction texts with
  | nil => intro k; simp [CachedEmbeddingService.cacheScan]
  | cons t rest ih =>
      intro k
      have h1 := ih (k + 1)
      rcases hscan : CachedEmbeddingService.cacheScan cache rest (k + 1) with ⟨R, U, I, hc, mc⟩
      rw [hscan] at h1
      cases h : mapGet cache t <;>
        simp_all [CachedEmbeddingService.cacheScan, hscan, h]

theorem cacheScan_uncached {α : Type} (cache : List (String × α)) :
    ∀ (texts : List String) (k : ℕ),
      (CachedEmbeddingService.cacheScan cache texts k).2.1 =
        texts.filter (fun t => (mapGet cache t).isNone) := by
  intro texts
  induction texts with
  | nil => intro k; simp [CachedEmbeddingService.cacheScan]
  | cons t rest ih =>
      intro k
      have h1 := ih (k + 1)
      rcases hscan : CachedEmbeddingService.cacheScan cache rest (k + 1) with ⟨R, U, I, hc, mc⟩
      rw [hscan] at h1
      cases h : mapGet cache t <;>
        simp_all [CachedEmbeddingService.cacheScan, hscan, h, List.filter_cons]

theorem cacheScan_uncached_len {α : Type} (cache : List (String × α)) :
    ∀ (texts : List String) (k : ℕ),
      (CachedEmbeddingService.cacheScan cache texts k).2.1.length =
        (CachedEmbeddingService.cacheScan cache texts k).2.2.1.length := by
  intro texts
  induction texts with
  | nil => intro k; simp [CachedEmbeddingService.cacheScan]
  | cons t rest ih =>
      intro k
      have h1 := ih (k + 1)
      rcases hscan : CachedEmbeddingService.cacheScan cache rest (k + 1) with ⟨R, U, I, hc, mc⟩
      rw [hscan] at h1
      cases h : mapGet cache t <;>
        simp_all [CachedEmbeddingService.cacheScan, hscan, h]

theorem cacheFill_after_scan {α : Type} (f : String → α) (cache : List (String × α)) :
    ∀ (texts : List String) (pre : List (Option α)) (c : List (String × α)),
      (CachedEmbeddingService.cacheFill f
          (((CachedEmbeddingService.cacheScan cache texts pre.length).2.1).zip
            ((CachedEmbeddingService.cacheScan cache texts pre.length).2.2.1))
          c (pre ++ (CachedEmbeddingService.cacheScan cache texts pre.length).1)).2 =
        pre ++ texts.map (fun t => some ((mapGet cache t).getD (f t))) := by
  intro texts
  induction texts with
  | nil =>
      intro pre c
      simp [CachedEmbeddingService.cacheScan, CachedEmbeddingService.cacheFill]
  | cons t rest ih =>
      intro pre c
      cases h : mapGet cache t with
      | some v =>
          have ih2 := ih (pre ++ [some v]) c
          rw [show (pre ++ [some v]).length = pre.length + 1 by simp] at ih2
          rcases hscan : CachedEmbeddingService.cacheScan cache rest (pre.length + 1) with
            ⟨R, U, I, hc, mc⟩
          rw [hscan] at ih2
          simp only [CachedEmbeddingService.cacheScan, hscan, h]
          simp only [List.map_cons, h, Option.getD_some]
          simpa [List.append_assoc] using ih2
      | none =>
          have ih2 := ih (pre ++ [some (f t)]) (mapSet c t (f t))
          rw [show (pre ++ [some (f t)]).length = pre.length + 1 by simp] at ih2
          rcases hscan : CachedEmbeddingService.cacheScan cache rest (pre.length + 1) with
            ⟨R, U, I, hc, mc⟩
          rw [hscan] at ih2
          simp only [CachedEmbeddingService.cacheScan, hscan, h]
          simp only [List.zip_cons_cons, CachedEmbeddingService.cacheFill]
          rw [list_set_append pre none (some (f t)) R]
          simp only [List.map_cons, h, Option.getD_none]
          simpa [List.append_assoc] using ih2

theorem cacheFill_cache_mem {α : Type} (f : String → α) :
    ∀ (pairs : List (String × ℕ)) (c : List (String × α)) (results : List (Option α))
      (t : String),
      mapGet (CachedEmbeddingService.cacheFill f pairs c results).1 t =
        if t ∈ pairs.map Prod.fst then some (f t) else mapGet c t := by
  intro pairs
  induction pairs with
  | nil => intro c results t; simp [CachedEmbeddingService.cacheFill]
  | cons p rest ih =>
      intro c results t
      obtain ⟨t₀, i₀⟩ := p
      simp only [CachedEmbeddingService.cacheFill, ih, List.map_cons, List.mem_cons]
      by_cases hmem : t ∈ rest.map Prod.fst
      · simp [hmem]
      · by_cases heq : t = t₀
        · subst heq
          simp [hmem, mapGet_mapSet]
        · simp only [hmem, heq, mapGet_mapSet, or_self, if_false, false_or]
          rw [if_neg (by simp only [beq_iff_eq]; exact fun hh => heq hh.symm)]

/-- C2: `embedBatch` returns, at every index, exactly the embedding a
single `embed` call on that text would return from the same prior cache
state; it issues exactly one `embedBatchUncached` call, whose argument is
the cache-miss subset of the input in its original relative order — and
no call at all when every text is a hit; and on return the cache maps
every input text to its returned embedding (in particular each newly
computed pair has been stored). -/
theorem cachedEmbedBatch_spec {α : Type} (f : String → α) (s : CacheState α)
    (texts : List String) :
    (CachedEmbeddingService.embedBatch f s texts).1 =
        texts.map (fun t => some ((CachedEmbeddingService.embed f s t).1)) ∧
      (CachedEmbeddingService.embedBatch f s texts).2.2 =
        (if texts.filter (fun t => (mapGet s.cache t).isNone) = [] then none
         else some (texts.filter (fun t => (mapGet s.cache t).isNone))) ∧
      ∀ t ∈ texts, mapGet (CachedEmbeddingService.embedBatch f s texts).2.1.cache t =
        some ((CachedEmbeddingService.embed f s t).1) := by
  rcases hscan : CachedEmbeddingService.cacheScan s.cache texts 0 with ⟨R, U, I, hc, mc⟩
  have hR : R = texts.map (mapGet s.cache) := by
    have h := cacheScan_results s.cache texts 0
    rw [hscan] at h
    exact h
  have hU : U = texts.filter (fun t => (mapGet s.cache t).isNone) := by
    have h := cacheScan_uncached s.cache texts 0
    rw [hscan] at h
    exact h
  have hUI : U.length = I.length := by
    have h := cacheScan_uncached_len s.cache texts 0
    rw [hscan] at h
    exact h
  cases hUe : U with
  | nil =>
      have hfilter : texts.filter (fun t => (mapGet s.cache t).isNone) = [] := by
        rw [← hU, hUe]
      have hall : ∀ t ∈ texts, ¬((mapGet s.cache t).isNone = true) :=
        List.filter_eq_nil_iff.mp hfilter
      have hmain : CachedEmbeddingService.embedBatch f s texts =
          (R, { s with cacheHits := s.cacheHits + hc, cacheMisses := s.cacheMisses + mc },
            none) := by
        simp [CachedEmbeddingService.embedBatch, hscan, hUe]
      refine ⟨?_, ?_, ?_⟩
      · rw [hmain, hR]
        refine List.map_congr_left fun t ht => ?_
        cases hv : mapGet s.cache t with
        | none => exact absurd (by simp [hv]) (hall t ht)
        | some v => simp [cachedEmbed_fst, hv]
      · rw [hmain, hfilter]
        simp
      · intro t ht
        rw [hmain]
        cases hv : mapGet s.cache t with
        | none => exact absurd (by simp [hv]) (hall t ht)
        | some v => simp [cachedEmbed_fst, hv]
  | cons u U' =>
      have hfill0 := cacheFill_after_scan f s.cache texts [] s.cache
      rw [List.length_nil, hscan, List.nil_append, List.nil_append] at hfill0
      rcases hfill : CachedEmbeddingService.cacheFill f (U.zip I) s.cache R with ⟨c2, R2⟩
      rw [hfill] at hfill0
      have hfne : texts.filter (fun t => (mapGet s.cache t).isNone) ≠ [] := by
        rw [← hU, hUe]
        simp
      have hmain : CachedEmbeddingService.embedBatch f s texts =
          (R2, { cache := c2, cacheHits := s.cacheHits + hc, cacheMisses := s.cacheMisses + mc },
            some U) := by
        rw [CachedEmbeddingService.embedBatch, hscan, hUe]
        simp only [hUe] at hfill
        simp [hfill]
      refine ⟨?_, ?_, ?_⟩
      · rw [hmain]
        simp only [cachedEmbed_fst]
        simpa using hfill0
      · rw [hmain, if_neg hfne, hU]
      · intro t ht
        rw [hmain]
        have hc2 := cacheFill_cache_mem f (U.zip I) s.cache R t
        rw [hfill] at hc2
        rw [List.map_fst_zip U I (le_of_eq hUI)] at hc2
        simp only [hc2]
        by_cases hmem : t ∈ U
        · have hnone : mapGet s.cache t = none := by
            have := (List.mem_filter.mp (hU ▸ hmem)).2
            simpa using this
          simp [hmem, cachedEmbed_fst, hnone]
        · have hsome : ¬((mapGet s.cache t).isNone = true) := by
            intro hno
            exact hmem (hU ▸ List.mem_filter.mpr ⟨ht, hno⟩)
          cases hv : mapGet s.cache t with
          | none => exact absurd (by simp [hv]) hsome
          | some v => simp [hmem, cachedEmbed_fst, hv]

theorem cachedEmbedBatch_spec_witness :
    ((CachedEmbeddingService.embedBatch (fun _ => 7) (⟨[("a", 5)], 0, 0⟩ : CacheState ℕ)
        ["a", "b"]).1 =
      ["a", "b"].map (fun t => some ((CachedEmbeddingService.embed (fun _ => 7)
        (⟨[("a", 5)], 0, 0⟩ : CacheState ℕ) t).1)) ∧
      (CachedEmbeddingService.embedBatch (fun _ => 7) (⟨[("a", 5)], 0, 0⟩ : CacheState ℕ)
          ["a", "b"]).2.2 =
        (if ["a", "b"].filter (fun t => (mapGet [("a", 5)] t).isNone) = [] then none
         else some (["a", "b"].filter (fun t => (mapGet [("a", 5)] t).isNone))) ∧
      ∀ t ∈ ["a", "b"],
        mapGet (CachedEmbeddingService.embedBatch (fun _ => 7)
          (⟨[("a", 5)], 0, 0⟩ : CacheState ℕ) ["a", "b"]).2.1.cache t =
          some ((CachedEmbeddingService.embed (fun _ => 7)
            (⟨[("a", 5)], 0, 0⟩ : CacheState ℕ) t).1)) :=
  cachedEmbedBatch_spec (fun _ => 7) ⟨[("a", 5)], 0, 0⟩ ["a", "b"]

/-! ### Delete-by-scope accounting -/

theorem deleteUserMemoriesLoop_spec (userId : String) (projectId : Option String) :
    ∀ entries : List (String × Models.Memory),
      MemoryDB.deleteUserMemoriesLoop userId projectId entries =
        ((entries.filter (fun e =>
            e.2.user_id == userId &&
              (!(jsTruthyStr projectId) || e.2.project_id == projectId))).length,
         entries.filter (fun e =>
            !(e.2.user_id == userId &&
              (!(jsTruthyStr projectId) || e.2.project_id == projectId)))) := by
  intro entries
  induction entries with
  | nil => simp [MemoryDB.deleteUserMemoriesLoop]
  | cons e rest ih =>
      obtain ⟨id, m⟩ := e
      simp only [MemoryDB.deleteUserMemoriesLoop, ih, List.filter_cons]
      cases h : (m.user_id == userId &&
          (!(jsTruthyStr projectId) || m.project_id == projectId)) <;> simp [h]

theorem deleteKnowledgeBaseFactsLoop_spec (kbId : String) :
    ∀ entries : List (String × Models.Fact),
      MemoryDB.deleteKnowledgeBaseFactsLoop kbId entries =
        ((entries.filter (fun e => e.2.kb_id == kbId)).length,
         entries.filter (fun e => !(e.2.kb_id == kbId))) := by
  intro entries
  induction entries with
  | nil => simp [MemoryDB.deleteKnowledgeBaseFactsLoop]
  | cons e rest ih =>
      obtain ⟨id, fa⟩ := e
      simp only [MemoryDB.deleteKnowledgeBaseFactsLoop, ih, List.filter_cons]
      cases h : (fa.kb_id == kbId) <;> simp [h]

theorem deleteChatSessionMessagesLoop_spec (sessionId : String) :
    ∀ entries : List (String × Models.ChatMessage),
      MemoryDB.deleteChatSessionMessagesLoop sessionId entries =
        ((entries.filter (fun e => e.2.session_id == sessionId)).length,
         entries.filter (fun e => !(e.2.session_id == sessionId))) := by
  intro entries
  induction entries with
  | nil => simp [MemoryDB.deleteChatSessionMessagesLoop]
  | cons e rest ih =>
      obtain ⟨id, m⟩ := e
      simp only [MemoryDB.deleteChatSessionMessagesLoop, ih, List.filter_cons]
      cases h : (m.session_id == sessionId) <;> simp [h]

/-- C5: each delete-by-scope operation returns exactly the number of
entries matching its scope predicate, its table afterwards consists of
exactly the non-matching entries (so entities of any other owner are
untouched, and the returned count is exactly the scoped owner's entity
count), and the other five tables are unchanged (expressed by the
`{s with ...}` update). -/
theorem deleteByScope_spec (s : MemoryDBState) (userId kbId sessionId : String)
    (projectId : Option String) :
    MemoryDB.deleteUserMemories s userId projectId =
        ((s.memories.filter (fun e =>
            e.2.user_id == userId &&
              (!(jsTruthyStr projectId) || e.2.project_id == projectId))).length,
         { s with memories := s.memories.filter (fun e =>
            !(e.2.user_id == userId &&
              (!(jsTruthyStr projectId) || e.2.project_id == projectId))) }) ∧
      MemoryDB.deleteKnowledgeBaseFacts s kbId =
        ((s.facts.filter (fun e => e.2.kb_id == kbId)).length,
         { s with facts := s.facts.filter (fun e => !(e.2.kb_id == kbId)) }) ∧
      MemoryDB.deleteChatSessionMessages s sessionId =
        ((s.chatMessages.filter (fun e => e.2.session_id == sessionId)).length,
         { s with chatMessages :=
            s.chatMessages.filter (fun e => !(e.2.session_id == sessionId)) }) := by
  refine ⟨?_, ?_, ?_⟩
  · simp [MemoryDB.deleteUserMemories, deleteUserMemoriesLoop_spec]
  · simp [MemoryDB.deleteKnowledgeBaseFacts, deleteKnowledgeBaseFactsLoop_spec]
  · simp [MemoryDB.deleteChatSessionMessages, deleteChatSessionMessagesLoop_spec]

/-! ### Ownership mismatch is reported as not-found -/

/-- C7: when a stored memory's `user_id` differs from the caller's
`userId`, `MemoryService.getMemory` returns `null` and
`MemoryService.deleteMemory` returns `false` with the store unchanged —
exactly the observable outcome of looking up an id that does not exist at
all. -/
theorem ownership_mismatch_not_found (s : MemoryDBState) (userId memoryId : String)
    (m : Models.Memory) (hm : MemoryDB.getMemory s memoryId = some m)
    (hown : m.user_id ≠ userId) :
    MemoryService.getMemory s userId memoryId = none ∧
      MemoryService.deleteMemory s userId memoryId = (false, s) ∧
      ∀ missingId, MemoryDB.getMemory s missingId = none →
        MemoryService.getMemory s userId missingId = none ∧
          MemoryService.deleteMemory s userId missingId = (false, s) := by
  refine ⟨?_, ?_, ?_⟩
  · simp [MemoryService.getMemory, hm, hown]
  · simp [MemoryService.deleteMemory, hm, hown]
  · intro missingId hmiss
    constructor
    · simp [MemoryService.getMemory, hmiss]
    · simp [MemoryService.deleteMemory, hmiss]

theorem ownership_mismatch_not_found_witness :
    (MemoryDB.getMemory
        ⟨[], [("m1", ⟨"m1", "u1", none, "c", none, 5, 0, 0, none⟩)], [], [], [], []⟩ "m1" =
        some ⟨"m1", "u1", none, "c", none, 5, 0, 0, none⟩ ∧
      ("u1" : String) ≠ "u2") ∧
      (MemoryService.getMemory
          ⟨[], [("m1", ⟨"m1", "u1", none, "c", none, 5, 0, 0, none⟩)], [], [], [], []⟩
          "u2" "m1" = none ∧
        MemoryService.deleteMemory
          ⟨[], [("m1", ⟨"m1", "u1", none, "c", none, 5, 0, 0, none⟩)], [], [], [], []⟩
          "u2" "m1" =
          (false, ⟨[], [("m1", ⟨"m1", "u1", none, "c", none, 5, 0, 0, none⟩)], [], [], [], []⟩) ∧
        ∀ missingId,
          MemoryDB.getMemory
            ⟨[], [("m1", ⟨"m1", "u1", none, "c", none, 5, 0, 0, none⟩)], [], [], [], []⟩
            missingId = none →
          MemoryService.getMemory
              ⟨[], [("m1", ⟨"m1", "u1", none, "c", none, 5, 0, 0, none⟩)], [], [], [], []⟩
              "u2" missingId = none ∧
            MemoryService.deleteMemory
              ⟨[], [("m1", ⟨"m1", "u1", none, "c", none, 5, 0, 0, none⟩)], [], [], [], []⟩
              "u2" missingId =
              (false,
                ⟨[], [("m1", ⟨"m1", "u1", none, "c", none, 5, 0, 0, none⟩)], [], [], [], []⟩)) :=
  ⟨⟨rfl, by simp⟩,
    ownership_mismatch_not_found
      ⟨[], [("m1", ⟨"m1", "u1", none, "c", none, 5, 0, 0, none⟩)], [], [], [], []⟩
      "u2" "m1" ⟨"m1", "u1", none, "c", none, 5, 0, 0, none⟩ rfl (by simp)⟩

/-! ### `close` discards all state -/

/-- C9: `close()` clears every table; afterwards every get-by-id returns
`null`, every list and search operation returns an empty array, and every
delete-by-scope operation reports count `0` and leaves the (empty) store
as it is. -/
theorem close_discards_all (s : MemoryDBState) (id userId kbId sessionId query : String)
    (projectId : Option String) (embedding : List ℝ) (limit offset : Option ℕ) :
    MemoryDB.close s = ⟨[], [], [], [], [], []⟩ ∧
      MemoryDB.getProject (MemoryDB.close s) id = none ∧
      MemoryDB.getMemory (MemoryDB.close s) id = none ∧
      MemoryDB.getKnowledgeBase (MemoryDB.close s) id = none ∧
      MemoryDB.getFact (MemoryDB.close s) id = none ∧
      MemoryDB.getChatSession (MemoryDB.close s) id = none ∧
      MemoryDB.getChatMessage (MemoryDB.close s) id = none ∧
      MemoryDB.getUserProjects (MemoryDB.close s) userId = [] ∧
      MemoryDB.getUserMemories (MemoryDB.close s) userId projectId limit offset = [] ∧
      MemoryDB.getProjectKnowledgeBases (MemoryDB.close s) id = [] ∧
      MemoryDB.getKnowledgeBaseFacts (MemoryDB.close s) kbId limit offset = [] ∧
      MemoryDB.getUserChatSessions (MemoryDB.close s) userId projectId = [] ∧
      MemoryDB.getChatMessages (MemoryDB.close s) sessionId limit offset = [] ∧
      MemoryDB.searchMemories (MemoryDB.close s) userId query embedding projectId limit =
        .ok [] ∧
      MemoryDB.searchFacts (MemoryDB.close s) kbId query embedding limit = .ok [] ∧
      MemoryDB.searchChatMessages (MemoryDB.close s) sessionId query embedding limit = .ok [] ∧
      MemoryDB.deleteUserMemories (MemoryDB.close s) userId projectId =
        (0, MemoryDB.close s) ∧
      MemoryDB.deleteKnowledgeBaseFacts (MemoryDB.close s) kbId = (0, MemoryDB.close s) ∧
      MemoryDB.deleteChatSessionMessages (MemoryDB.close s) sessionId =
        (0, MemoryDB.close s) := by
  refine ⟨rfl, rfl, rfl, rfl, rfl, rfl, rfl, rfl, ?_, rfl, ?_, ?_, ?_, ?_, ?_, ?_, ?_, ?_, ?_⟩
  · simp [MemoryDB.close, MemoryDB.getUserMemories, jsSlice]
  · simp [MemoryDB.close, MemoryDB.getKnowledgeBaseFacts, jsSlice]
  · simp [MemoryDB.close, MemoryDB.getUserChatSessions]
  · simp [MemoryDB.close, MemoryDB.getChatMessages, jsSlice, List.mergeSort_nil]
  · simp only [MemoryDB.searchMemories, MemoryDB.close, List.map_nil, List.filter_nil,
      ite_self]
    show Except.ok (List.take (limit.getD 10)
        (([] : List (Models.Memory × Option ℝ)).mergeSort scoreLe)) = Except.ok []
    rw [List.mergeSort_nil, List.take_nil]
  · simp only [MemoryDB.searchFacts, MemoryDB.close, List.map_nil, List.filter_nil]
    show Except.ok (List.take (limit.getD 10)
        (([] : List (Models.Fact × Option ℝ)).mergeSort scoreLe)) = Except.ok []
    rw [List.mergeSort_nil, List.take_nil]
  · simp only [MemoryDB.searchChatMessages, MemoryDB.close, List.map_nil, List.filter_nil]
    show Except.ok (List.take (limit.getD 10)
        (([] : List (Models.ChatMessage × Option ℝ)).mergeSort scoreLe)) = Except.ok []
    rw [List.mergeSort_nil, List.take_nil]
  · simp [MemoryDB.close, MemoryDB.deleteUserMemories, MemoryDB.deleteUserMemoriesLoop]
  · simp [MemoryDB.close, MemoryDB.deleteKnowledgeBaseFacts,
      MemoryDB.deleteKnowledgeBaseFactsLoop]
  · simp [MemoryDB.close, MemoryDB.deleteChatSessionMessages,
      MemoryDB.deleteChatSessionMessagesLoop]

/-! ### No-query fact search -/

/-- C10: a request whose `query` is the empty string takes exactly the
same path as a request with no query at all: the embedding service is
never invoked and the result is the knowledge base's facts (up to the
limit, default 100) each with `similarity_score` 1. -/
theorem searchFacts_empty_query (f : String → List ℝ) (s : MemoryDBState)
    (kbId : String) (limit : Option ℕ) :
    MemoryClient.searchFacts f s ⟨kbId, some "", limit⟩ =
        MemoryClient.searchFacts f s ⟨kbId, none, limit⟩ ∧
      (MemoryClient.searchFacts f s ⟨kbId, some "", limit⟩).2 = [] ∧
      (MemoryClient.searchFacts f s ⟨kbId, some "", limit⟩).1 =
        .ok ((MemoryDB.getKnowledgeBaseFacts s kbId limit none).map
          (fun fa => (fa, some 1))) := by
  refine ⟨?_, ?_, ?_⟩ <;> simp [MemoryClient.searchFacts, jsTruthyStr]

/-- C4, amended: with no (or an empty) query, `searchFacts` is not an
error and returns the knowledge base's facts each with
`similarity_score` 1 — but only up to the request's limit, default 100
(the no-query path delegates to `getKnowledgeBaseFacts`, whose `limit`
parameter defaults to 100); it returns all facts only when the knowledge
base holds at most that many. -/
theorem searchFacts_no_query (f : String → List ℝ) (s : MemoryDBState)
    (request : Models.SearchFactsRequest) (hq : jsTruthyStr request.query = false) :
    MemoryClient.searchFacts f s request =
      (.ok ((jsSlice
          ((s.facts.map Prod.snd).filter (fun fa => fa.kb_id == request.knowledgeBaseId))
          0 (request.limit.getD 100)).map (fun fa => (fa, some 1))),
        []) := by
  simp [MemoryClient.searchFacts, MemoryDB.getKnowledgeBaseFacts, hq]

theorem searchFacts_no_query_witness :
    jsTruthyStr (Models.SearchFactsRequest.mk "kb" none none).query = false ∧
      MemoryClient.searchFacts (fun _ => []) factsKbState ⟨"kb", none, none⟩ =
        (.ok ((jsSlice
            ((factsKbState.facts.map Prod.snd).filter (fun fa => fa.kb_id == "kb"))
            0 100).map (fun fa => (fa, some 1))),
          []) :=
  ⟨rfl, searchFacts_no_query (fun _ => []) factsKbState ⟨"kb", none, none⟩ rfl⟩

/-- C4, counterexample: on a knowledge base holding 101 facts, a no-query
`searchFacts` call (no limit supplied) returns only 100 of them — not all
facts in the knowledge base. -/
theorem searchFacts_no_query_counterexample :
    Except.map List.length
        (MemoryClient.searchFacts (fun _ => []) factsKbState ⟨"kb", none, none⟩).1 =
      .ok 100 ∧
      ((factsKbState.facts.map Prod.snd).filter (fun fa => fa.kb_id == "kb")).length = 101 ∧
      (100 : ℕ) ≠ 101 := by
  refine ⟨rfl, rfl, by decide⟩

/-! ### Bounded-concurrency worker pool -/

theorem callingIndices_cons {α : Type} (p : WorkerPhase α) (ws : List (WorkerPhase α)) :
    callingIndices (p :: ws) = phaseIdx p ++ callingIndices ws := by
  cases p <;> rfl

theorem callingIndices_set_perm {α : Type} :
    ∀ (ws : List (WorkerPhase α)) (w : ℕ) (x old : WorkerPhase α),
      ws.get? w = some old →
      (callingIndices (ws.set w x) ++ phaseIdx old).Perm (phaseIdx x ++ callingIndices ws) := by
  intro ws
  induction ws with
  | nil => intro w x old hw; simp at hw
  | cons p rest ih =>
      intro w x old hw
      cases w with
      | zero =>
          have hp : p = old := by simpa using hw
          subst hp
          show (callingIndices (x :: rest) ++ phaseIdx p).Perm
            (phaseIdx x ++ callingIndices (p :: rest))
          rw [callingIndices_cons, callingIndices_cons, List.append_assoc]
          exact List.Perm.append_left _ List.perm_append_comm
      | succ w' =>
          have hw' : rest.get? w' = some old := by simpa using hw
          show (callingIndices (p :: rest.set w' x) ++ phaseIdx old).Perm
            (phaseIdx x ++ callingIndices (p :: rest))
          rw [callingIndices_cons, callingIndices_cons, List.append_assoc]
          refine List.Perm.trans (List.Perm.append_left (phaseIdx p) (ih w' x old hw')) ?_
          rw [← List.append_assoc, ← List.append_assoc]
          exact List.Perm.append_right _ List.perm_append_comm

theorem jsOrDefault_pos (a : Option ℕ) : 0 < jsOrDefault a 4 := by
  cases a with
  | none => simp [jsOrDefault]
  | some v =>
      by_cases h : v = 0
      · simp [jsOrDefault, h]
      · simp only [jsOrDefault, if_neg h]
        omega

theorem callingIndices_replicate_running {α : Type} (n : ℕ) :
    callingIndices (List.replicate n (WorkerPhase.running : WorkerPhase α)) = [] := by
  induction n with
  | zero => rfl
  | succ k ih => simp [List.replicate_succ, callingIndices_cons, phaseIdx, ih]

theorem poolInit_inv {α : Type} (f : String → α) (mc : Option ℕ) (texts : List String) :
    PoolInv f mc texts (poolInit α mc texts) := by
  constructor
  · simp [poolInit]
  · simp [poolInit]
  · intro p hp
    simp only [poolInit, List.mem_map] at hp
    obtain ⟨q, hq, rfl⟩ := hp
    have h := List.mem_enumFrom (by simpa [List.enum] using hq)
    obtain ⟨-, h2, h3⟩ := h
    simp only [Nat.zero_add] at h2
    simp only [Nat.sub_zero] at h3
    rw [List.get?_eq_getElem?, List.getElem?_eq_getElem h2, h3]
  · intro t i hmem
    simp only [poolInit] at hmem
    have := List.eq_of_mem_replicate hmem
    exact absurd this (by simp)
  · intro i v hv
    simp only [poolInit] at hv
    rw [List.get?_eq_getElem?, List.getElem?_replicate] at hv
    by_cases h : i < texts.length <;> simp [h] at hv
  · simp only [pendingIndices, poolInit]
    have h1 := callingIndices_replicate_running (α := α) (min (jsOrDefault mc 4) texts.length)
    rw [h1, List.append_nil, List.map_map]
    have h2 : (Prod.snd ∘ fun p : ℕ × String => (p.2, p.1)) = Prod.fst := rfl
    rw [h2, List.enum_map_fst]
    exact List.nodup_range _
  · intro i hi
    simp only [pendingIndices, poolInit] at hi
    have h1 := callingIndices_replicate_running (α := α) (min (jsOrDefault mc 4) texts.length)
    rw [h1, List.append_nil, List.map_map] at hi
    have h2 : (Prod.snd ∘ fun p : ℕ × String => (p.2, p.1)) = Prod.fst := rfl
    rw [h2, List.enum_map_fst, List.mem_range] at hi
    simp [poolInit, List.get?_eq_getElem?, List.getElem?_replicate, hi]
  · intro i hi hres
    simp only [pendingIndices, poolInit, List.map_map]
    have h2 : (Prod.snd ∘ fun p : ℕ × String => (p.2, p.1)) = Prod.fst := rfl
    rw [h2, List.enum_map_fst]
    exact List.mem_append_left _ (List.mem_range.mpr hi)
  · intro hmem
    simp only [poolInit] at hmem
    have := List.eq_of_mem_replicate hmem
    exact absurd this (by simp)

theorem poolStep_inv {α : Type} {f : String → α} {mc : Option ℕ} {texts : List String}
    {s s' : PoolState α} (hinv : PoolInv f mc texts s) (hstep : PoolStep f s s') :
    PoolInv f mc texts s' := by
  cases hstep with
  | take w text index rest hw hq =>
      have hcal : (callingIndices (s.workers.set w (WorkerPhase.calling text index))).Perm
          (index :: callingIndices s.workers) := by
        simpa [phaseIdx] using
          callingIndices_set_perm s.workers w (WorkerPhase.calling text index)
            WorkerPhase.running hw
      have hqmap : s.queue.map Prod.snd = index :: rest.map Prod.snd := by
        rw [hq, List.map_cons]
      have hpend : (List.map Prod.snd rest ++
          callingIndices (s.workers.set w (WorkerPhase.calling text index))).Perm
          (pendingIndices s) := by
        refine List.Perm.trans (List.Perm.append_left _ hcal) ?_
        rw [pendingIndices, hqmap]
        exact List.perm_middle
      constructor
      · simpa using hinv.wlen
      · exact hinv.rlen
      · intro p hp
        exact hinv.queue_wf p (by rw [hq]; exact List.mem_cons_of_mem _ hp)
      · intro t i hmem
        rcases List.mem_or_eq_of_mem_set hmem with hold | hnew
        · exact hinv.call_wf t i hold
        · obtain ⟨rfl, rfl⟩ : t = text ∧ i = index := by
            injection hnew with h1 h2
            exact ⟨h1, h2⟩
          exact hinv.queue_wf (t, i) (by rw [hq]; exact List.mem_cons_self _ _)
      · exact hinv.res_wf
      · exact (hpend.nodup_iff).mpr hinv.pend_nodup
      · intro i hi
        exact hinv.pend_unfilled i (hpend.mem_iff.mp hi)
      · intro i hilt hires
        exact hpend.mem_iff.mpr (hinv.pend_cover i hilt hires)
      · intro hfin
        rcases List.mem_or_eq_of_mem_set hfin with hold | hnew
        · exact absurd (hinv.fin_queue hold) (by rw [hq]; simp)
        · exact absurd hnew (by simp)
  | exit w hw hq =>
      have hcal : (callingIndices (s.workers.set w WorkerPhase.finished)).Perm
          (callingIndices s.workers) := by
        simpa [phaseIdx] using
          callingIndices_set_perm s.workers w WorkerPhase.finished WorkerPhase.running hw
      have hpend : (List.map Prod.snd s.queue ++
          callingIndices (s.workers.set w WorkerPhase.finished)).Perm (pendingIndices s) :=
        List.Perm.append_left _ hcal
      constructor
      · simpa using hinv.wlen
      · exact hinv.rlen
      · exact hinv.queue_wf
      · intro t i hmem
        rcases List.mem_or_eq_of_mem_set hmem with hold | hnew
        · exact hinv.call_wf t i hold
        · exact absurd hnew (by simp)
      · exact hinv.res_wf
      · exact (hpend.nodup_iff).mpr hinv.pend_nodup
      · intro i hi
        exact hinv.pend_unfilled i (hpend.mem_iff.mp hi)
      · intro i hilt hires
        exact hpend.mem_iff.mpr (hinv.pend_cover i hilt hires)
      · intro _
        exact hq
  | complete w text index hw =>
      have hmemw : WorkerPhase.calling text index ∈ s.workers := List.get?_mem hw
      have hti : texts.get? index = some text := hinv.call_wf text index hmemw
      have hin : index < texts.length := by
        rcases List.get?_eq_some.mp hti with ⟨h, -⟩
        exact h
      have hirl : index < s.results.length := by rw [hinv.rlen]; exact hin
      have hcal : (callingIndices (s.workers.set w WorkerPhase.running) ++ [index]).Perm
          (callingIndices s.workers) := by
        simpa [phaseIdx] using
          callingIndices_set_perm s.workers w WorkerPhase.running
            (WorkerPhase.calling text index) hw
      have hPP : ((List.map Prod.snd s.queue ++
          callingIndices (s.workers.set w WorkerPhase.running)) ++ [index]).Perm
          (pendingIndices s) := by
        rw [List.append_assoc]
        exact List.Perm.append_left _ hcal
      have hnodup2 : ((List.map Prod.snd s.queue ++
          callingIndices (s.workers.set w WorkerPhase.running)) ++ [index]).Nodup :=
        (hPP.nodup_iff).mpr hinv.pend_nodup
      have hP'nodup : (List.map Prod.snd s.queue ++
          callingIndices (s.workers.set w WorkerPhase.running)).Nodup :=
        hnodup2.of_append_left
      have hinotP' : index ∉ (List.map Prod.snd s.queue ++
          callingIndices (s.workers.set w WorkerPhase.running)) := by
        rcases List.nodup_append.mp hnodup2 with ⟨-, -, hdisj⟩
        intro hmem
        exact hdisj hmem (by simp)
      constructor
      · simpa using hinv.wlen
      · simpa using hinv.rlen
      · exact hinv.queue_wf
      · intro t i hmem
        rcases List.mem_or_eq_of_mem_set hmem with hold | hnew
        · exact hinv.call_wf t i hold
        · exact absurd hnew (by simp)
      · intro i v hv
        by_cases hieq : i = index
        · subst hieq
          rw [List.get?_eq_getElem?, List.getElem?_set_self hirl] at hv
          obtain rfl : f text = v := by simpa using hv
          exact ⟨text, hti, rfl⟩
        · rw [List.get?_eq_getElem?,
            List.getElem?_set_ne (fun h => hieq h.symm)] at hv
          exact hinv.res_wf i v (by rw [List.get?_eq_getElem?]; exact hv)
      · exact hP'nodup
      · intro i hi
        have hiP : i ∈ pendingIndices s :=
          hPP.mem_iff.mp (List.mem_append_left _ hi)
        have hine : i ≠ index := fun h => hinotP' (h ▸ hi)
        have hold := hinv.pend_unfilled i hiP
        rw [List.get?_eq_getElem?] at hold ⊢
        rw [List.getElem?_set_ne (fun h => hine h.symm)]
        exact hold
      · intro i hilt hires
        have hine : i ≠ index := by
          intro h
          subst h
          rw [List.get?_eq_getElem?, List.getElem?_set_self hirl] at hires
          simp at hires
        have hold : s.results.get? i = some none := by
          rw [List.get?_eq_getElem?] at hires ⊢
          rw [List.getElem?_set_ne (fun h => hine h.symm)] at hires
          exact hires
        have hiP := hinv.pend_cover i hilt hold
        rcases List.mem_append.mp (hPP.mem_iff.mpr hiP) with h1 | h2
        · exact h1
        · exact absurd (by simpa using h2) hine
      · intro hfin
        rcases List.mem_or_eq_of_mem_set hfin with hold | hnew
        · exact hinv.fin_queue hold
        · exact absurd hnew (by simp)

theorem poolReachable_inv {α : Type} (f : String → α) (mc : Option ℕ) (texts : List String)
    (s : PoolState α) (hs : PoolReachable f mc texts s) : PoolInv f mc texts s := by
  induction hs with
  | refl => exact poolInit_inv f mc texts
  | tail hsteps hstep ih => exact poolStep_inv ih hstep

/-- C8: in every state one `embedBatch` worker-pool invocation can reach,
the number of outstanding provider calls is at most `maxConcurrency`
(`options.providerOptions?.maxConcurrency || 4`); the indices of the
outstanding calls are pairwise distinct and each targets a result slot
not yet written (so no two workers ever write the same index); and when
the pool has drained (`Promise.all` resolved) the results array is fully
populated with, at each index, the embedding of that index's text. -/
theorem workerPool_bounded_and_complete {α : Type} (f : String → α) (mc : Option ℕ)
    (texts : List String) (s : PoolState α) (hs : PoolReachable f mc texts s) :
    (callingIndices s.workers).length ≤ jsOrDefault mc 4 ∧
      (callingIndices s.workers).Nodup ∧
      (∀ i ∈ callingIndices s.workers, s.results.get? i = some none) ∧
      (allFinished s → ∀ i (hi : i < texts.length),
        s.results.get? i = some (some (f (texts.get ⟨i, hi⟩)))) := by
  have hinv := poolReachable_inv f mc texts s hs
  refine ⟨?_, ?_, ?_, ?_⟩
  · have h1 : (callingIndices s.workers).length ≤ s.workers.length :=
      List.length_filterMap_le _ _
    rw [hinv.wlen] at h1
    exact le_trans h1 (min_le_left _ _)
  · exact hinv.pend_nodup.of_append_right
  · intro i hi
    exact hinv.pend_unfilled i (List.mem_append_right _ hi)
  · intro hfin i hi
    have hcal : callingIndices s.workers = [] := by
      unfold callingIndices
      rw [List.filterMap_eq_nil_iff]
      intro a ha
      rw [hfin a ha]
    have hq : s.queue = [] := by
      by_cases hn : s.workers = []
      · exfalso
        have h0 : s.workers.length = 0 := by rw [hn]; rfl
        rw [hinv.wlen] at h0
        rcases Nat.min_eq_zero_iff.mp h0 with h | h
        · exact absurd h (Nat.pos_iff_ne_zero.mp (jsOrDefault_pos mc))
        · omega
      · obtain ⟨w0, hw0⟩ := List.exists_mem_of_ne_nil s.workers hn
        exact hinv.fin_queue (hfin w0 hw0 ▸ hw0)
    have hpend : pendingIndices s = [] := by
      rw [pendingIndices, hq, hcal]
      rfl
    have hne : s.results.get? i ≠ some none := by
      intro hnone
      have hmem := hinv.pend_cover i hi hnone
      rw [hpend] at hmem
      exact absurd hmem (List.not_mem_nil i)
    have hlt : i < s.results.length := by rw [hinv.rlen]; exact hi
    obtain ⟨x, hx⟩ : ∃ x, s.results.get? i = some x := by
      rw [List.get?_eq_getElem?]
      exact ⟨_, List.getElem?_eq_getElem hlt⟩
    cases x with
    | none => exact absurd hx hne
    | some v =>
        obtain ⟨t, hti, rfl⟩ := hinv.res_wf i v hx
        obtain ⟨h1, h2⟩ := List.get?_eq_some.mp hti
        rw [hx, h2]

theorem workerPool_bounded_and_complete_witness :
    PoolReachable (fun _ => (0 : ℕ)) none ["a"] (poolInit ℕ none ["a"]) ∧
      ((callingIndices (poolInit ℕ none ["a"]).workers).length ≤ jsOrDefault none 4 ∧
        (callingIndices (poolInit ℕ none ["a"]).workers).Nodup ∧
        (∀ i ∈ callingIndices (poolInit ℕ none ["a"]).workers,
          (poolInit ℕ none ["a"]).results.get? i = some none) ∧
        (allFinished (poolInit ℕ none ["a"]) → ∀ i (hi : i < (["a"] : List String).length),
          (poolInit ℕ none ["a"]).results.get? i =
            some (some ((fun _ => (0 : ℕ)) ((["a"] : List String).get ⟨i, hi⟩))))) :=
  ⟨Relation.ReflTransGen.refl,
    workerPool_bounded_and_complete (fun _ => 0) none ["a"] (poolInit ℕ none ["a"])
      Relation.ReflTransGen.refl⟩
